import Mathlib

set_option maxHeartbeats 1000000

/-! Shallow embedding of `src/scripts/file_renamer.py`.

Filenames (Python `str`) are modelled as `List Char`.  The directory passed to
`rename_files` is modelled as a list of entries, each carrying its name and an
abstract content tag; the non-recursive listing of a single flat directory is
modelled, so the full path of an entry is its name.  `datetime.now().strftime`
is impure, so the formatted date string is a parameter of the pipeline.
Python's `\w` and `\s` regex classes are modelled at ASCII fidelity:
`Char.isAlphanum`/`_` for `\w` and space, tab, newline, carriage return,
vertical tab and form feed for `\s`.  `Path.rename` is modelled as always
succeeding (no external interference), matching the try-block's success path. -/

abbrev FName := List Char

/-- Python `c` matching regex class `\s` (ASCII fidelity). -/
def isSpaceChar (c : Char) : Bool := c.isWhitespace || c == '\x0b' || c == '\x0c'

/-- Python `c` matching regex class `\w` (ASCII fidelity). -/
def isWordChar (c : Char) : Bool := c.isAlphanum || c == '_'

/-- Characters kept by `re.sub(r'[^\w\s-]', '', name)` in `sanitize_filename`. -/
def keepChar (c : Char) : Bool := isWordChar c || isSpaceChar c || c == '-'

def isUnderscore (c : Char) : Bool := c == '_'

/-- Scan of the reversed path by `os.path.splitext`: find the last `.` of the
original string.  `acc` collects the characters already scanned, in original
order.  Returns `none` when the string has no dot. -/
def splitextRev : List Char → List Char → Option (List Char × List Char)
  | [], _ => none
  | c :: rest, acc =>
    if c = '.' then some (rest.reverse, '.' :: acc) else splitextRev rest (c :: acc)

/-- Model of `os.path.splitext` for a path without separators (a bare
filename): split at the last dot, unless every character before that dot is
itself a dot (a leading-dot name such as `.bashrc` has no extension). -/
def splitext (f : FName) : FName × FName :=
  match splitextRev f.reverse [] with
  | none => (f, [])
  | some (nm, ext) => if nm.any (fun c => decide (c ≠ '.')) then (nm, ext) else (f, [])

/-- Model of `re.sub(r'X+', rep, s)` for a character class `X`: a left-to-right
scan that emits `rep` when a run of class characters starts and drops the rest
of the run, tracking with a flag whether the scan is inside a run. -/
def collapseAux (p : Char → Bool) (rep : Char) : Bool → List Char → List Char
  | _, [] => []
  | inRun, c :: rest =>
    if p c then
      if inRun then collapseAux p rep true rest
      else rep :: collapseAux p rep true rest
    else c :: collapseAux p rep false rest

def collapseFSM (p : Char → Bool) (rep : Char) (l : List Char) : List Char :=
  collapseAux p rep false l

/-- Alternative formulation of run collapsing, following the wording "collapse
each maximal run into a single replacement": on meeting a class character,
emit the replacement and drop the whole run with `dropWhile`. -/
def collapseRuns (p : Char → Bool) (rep : Char) : List Char → List Char
  | [] => []
  | c :: rest =>
    if p c then rep :: collapseRuns p rep (rest.dropWhile p)
    else c :: collapseRuns p rep rest
termination_by l => l.length
decreasing_by
  · simp only [List.length_cons]
    exact Nat.lt_succ_of_le (List.dropWhile_sublist p).length_le
  · simp

/-- The three substitutions of `sanitize_filename` applied to the stem:
remove characters outside `[\w\s-]`, replace whitespace runs by `_`,
collapse `_` runs. -/
def sanitizeCore (name : List Char) : List Char :=
  collapseFSM isUnderscore '_' (collapseFSM isSpaceChar '_' (name.filter keepChar))

/-- Model of `sanitize_filename`. -/
def sanitize_filename (filename : FName) : FName :=
  let pr := splitext filename
  sanitizeCore pr.1 ++ pr.2

/-- Model of `add_prefix(filename, p)`, which prepends `p`. -/
def add_pre (filename p : FName) : FName := p ++ filename

/-- Model of `add_suffix`: insert before the extension. -/
def add_suffix (filename suffixStr : FName) : FName :=
  let pr := splitext filename
  pr.1 ++ suffixStr ++ pr.2

/-- Python `str(number).zfill(digits)` for a natural number. -/
def zfill (digits : Nat) (s : List Char) : List Char :=
  List.replicate (digits - s.length) '0' ++ s

/-- Model of `add_sequential_number`. -/
def add_sequential_number (filename : FName) (number digits : Nat) : FName :=
  let pr := splitext filename
  pr.1 ++ '_' :: (zfill digits (Nat.toDigits 10 number) ++ pr.2)

/-- Model of `add_date_stamp`; the formatted current date is a parameter. -/
def add_date_stamp (filename dateStr : FName) : FName :=
  let pr := splitext filename
  pr.1 ++ '_' :: (dateStr ++ pr.2)

/-- Scanning loop of Python `str.replace` for a non-empty needle: replace each
leftmost non-overlapping occurrence.  The fuel argument (instantiated with the
string length, an upper bound on the number of steps) makes the recursion
structural. -/
def replaceLoop (old nw : FName) : Nat → FName → FName
  | 0, s => s
  | _ + 1, [] => []
  | fuel + 1, c :: rest =>
    if old.isPrefixOf (c :: rest) then
      nw ++ replaceLoop old nw fuel ((c :: rest).drop old.length)
    else c :: replaceLoop old nw fuel rest

/-- Model of `replace_text(filename, old, new)`, i.e. `str.replace`: for an
empty needle Python inserts `new` at every position. -/
def replace_text (filename old nw : FName) : FName :=
  if old = [] then nw ++ (filename.map (fun c => c :: nw)).flatten
  else replaceLoop old nw filename.length filename

/-- The `pattern` dictionary built by `main`.  A `some` field corresponds to a
truthy dictionary entry; `digits` defaults to 3 as in `pattern.get('digits', 3)`. -/
structure Pattern where
  sanitize : Bool
  replace : Option (FName × FName)
  pre : Option FName
  suff : Option FName
  sequential : Bool
  digits : Nat := 3
  date : Bool
deriving DecidableEq

/-- A file of the directory: its name and an abstract content tag. -/
structure Entry where
  name : FName
  content : Nat
deriving DecidableEq

/-- The transformation chain of `rename_files` (lines 92-110): the enabled
transforms applied in the fixed textual order, each consuming the previous
output. -/
def applyPattern (pat : Pattern) (dateStr : FName) (idx : Nat) (old_name : FName) : FName :=
  let n1 := if pat.sanitize then sanitize_filename old_name else old_name
  let n2 := match pat.replace with
    | some pr => replace_text n1 pr.1 pr.2
    | none => n1
  let n3 := match pat.pre with
    | some p => add_pre n2 p
    | none => n2
  let n4 := match pat.suff with
    | some s => add_suffix n3 s
    | none => n3
  let n5 := if pat.sequential then add_sequential_number n4 idx pat.digits else n4
  if pat.date then add_date_stamp n5 dateStr else n5

/-- The list of enabled transforms in the order fixed by the specification:
sanitize, replace, prefix-add, suffix-add, sequential number, date stamp. -/
def enabledTransforms (pat : Pattern) (dateStr : FName) (idx : Nat) : List (FName → FName) :=
  (if pat.sanitize then [sanitize_filename] else []) ++
  (match pat.replace with
    | some pr => [fun f => replace_text f pr.1 pr.2]
    | none => []) ++
  (match pat.pre with
    | some p => [fun f => add_pre f p]
    | none => []) ++
  (match pat.suff with
    | some s => [fun f => add_suffix f s]
    | none => []) ++
  (if pat.sequential then [fun f => add_sequential_number f idx pat.digits] else []) ++
  (if pat.date then [fun f => add_date_stamp f dateStr] else [])

/-- Left-to-right composition of the enabled transforms, following the
specification wording: each transform consumes the previous one's output. -/
def composeEnabled (pat : Pattern) (dateStr : FName) (idx : Nat) (f : FName) : FName :=
  (enabledTransforms pat dateStr idx).foldl (fun nm t => t nm) f

/-- Model of `new_path.exists()` against the current directory contents. -/
def existsName (nm : FName) (files : List Entry) : Bool :=
  files.any (fun e => decide (e.name = nm))

/-- Model of `file_path.rename(new_path)` inside the target directory. -/
def renameIn (files : List Entry) (old nw : FName) : List Entry :=
  files.map (fun e => if e.name = old then { e with name := nw } else e)

/-- Observable outcome of one `rename_files` run: the printed plan pairs, the
skip reports, the final `renamed_count`, and the directory contents. -/
structure RunResult where
  plan : List (FName × FName)
  skipped : List (FName × FName)
  renamed_count : Nat
  files : List Entry
deriving DecidableEq

/-- Loop body of `rename_files` (lines 88-129) for one `(index, file)` pair. -/
def processEntry (pat : Pattern) (dateStr : FName) (dry_run : Bool)
    (acc : RunResult) (ie : Nat × Entry) : RunResult :=
  let old_name := ie.2.name
  let new_name := applyPattern pat dateStr ie.1 old_name
  if new_name = old_name then acc
  else if existsName new_name acc.files then
    { acc with skipped := acc.skipped ++ [(old_name, new_name)] }
  else
    let acc2 := { acc with plan := acc.plan ++ [(old_name, new_name)] }
    if dry_run then acc2
    else { acc2 with
             files := renameIn acc2.files old_name new_name,
             renamed_count := acc2.renamed_count + 1 }

/-- Python's lexicographic string order on code points, as a Boolean `≤`. -/
def nameLe : FName → FName → Bool
  | [], _ => true
  | _ :: _, [] => false
  | a :: as, b :: bs => if a = b then nameLe as bs else decide (a < b)

/-- Stable insertion into a sorted list (insert after equal keys). -/
def insertSorted (e : Entry) : List Entry → List Entry
  | [] => [e]
  | f :: rest =>
    if nameLe f.name e.name then f :: insertSorted e rest else e :: f :: rest

/-- Model of Python `sorted(files)`: stable ascending sort by full path, which
in a flat directory is the name. -/
def sortFiles (files : List Entry) : List Entry :=
  files.foldr insertSorted []

/-- Model of `enumerate(sorted(files), start=1)`. -/
def enumerateFrom1 (l : List Entry) : List (Nat × Entry) :=
  l.enum.map (fun p => (p.1 + 1, p.2))

/-- Model of `rename_files(directory, pattern, dry_run)` on an existing
directory holding `files`: fold the loop body over the enumerated sorted
listing, starting from `renamed_count = 0` and the untouched directory. -/
def rename_files (pat : Pattern) (dateStr : FName) (dry_run : Bool)
    (files : List Entry) : RunResult :=
  (enumerateFrom1 (sortFiles files)).foldl (processEntry pat dateStr dry_run)
    { plan := [], skipped := [], renamed_count := 0, files := files }

/-- Truth of Python `not pattern` for the dictionary built by `main`:
no transform is enabled. -/
def patternIsEmpty (pat : Pattern) : Bool :=
  !pat.sanitize && pat.replace.isNone && pat.pre.isNone && pat.suff.isNone &&
    !pat.sequential && !pat.date

/-- Model of `main` after argument parsing (lines 203-213): with an empty
pattern it prints an error and exits without calling `rename_files`. -/
def main_run (pat : Pattern) (dateStr : FName) (dry_run : Bool)
    (files : List Entry) : Option RunResult :=
  if patternIsEmpty pat then none else some (rename_files pat dateStr dry_run files)

/-- Outcome of one dry-run loop iteration that reaches the plan: the proposed
name differs and the target does not exist in the (never-changing) directory. -/
def dryPlanStep (pat : Pattern) (dateStr : FName) (files0 : List Entry)
    (ie : Nat × Entry) : Option (FName × FName) :=
  let old := ie.2.name
  let nw := applyPattern pat dateStr ie.1 old
  if nw = old then none
  else if existsName nw files0 then none
  else some (old, nw)

/-- Outcome of one dry-run loop iteration that is reported as skipped. -/
def drySkipStep (pat : Pattern) (dateStr : FName) (files0 : List Entry)
    (ie : Nat × Entry) : Option (FName × FName) :=
  let old := ie.2.name
  let nw := applyPattern pat dateStr ie.1 old
  if nw = old then none
  else if existsName nw files0 then some (old, nw)
  else none

/-- Specification-worded sanitize: strip the extension, remove every character
that is not alphanumeric, whitespace, hyphen, or underscore, collapse runs of
whitespace into a single underscore, collapse runs of underscores into one,
reattach the extension. -/
def isAllowedSpec (c : Char) : Bool :=
  c.isAlphanum || c.isWhitespace || c == '\x0b' || c == '\x0c' || c == '-' || c == '_'

def sanitizeSpec (f : FName) : FName :=
  let pr := splitext f
  collapseRuns isUnderscore '_'
    (collapseRuns isSpaceChar '_' (pr.1.filter isAllowedSpec)) ++ pr.2

/-- Pattern with only the sequential transform enabled, digit width `w`. -/
def patSeq (w : Nat) : Pattern :=
  { sanitize := false, replace := none, pre := none, suff := none,
    sequential := true, digits := w, date := false }

/-- Pattern with every transform disabled (an empty `pattern` dictionary). -/
def patNone : Pattern :=
  { sanitize := false, replace := none, pre := none, suff := none,
    sequential := false, digits := 3, date := false }


/-! Lemmas about run collapsing. -/

theorem collapseRuns_nil (p : Char → Bool) (rep : Char) : collapseRuns p rep [] = [] := by
  simp [collapseRuns]

theorem collapseRuns_cons (p : Char → Bool) (rep : Char) (c : Char) (rest : List Char) :
    collapseRuns p rep (c :: rest) =
      if p c then rep :: collapseRuns p rep (rest.dropWhile p)
      else c :: collapseRuns p rep rest := by
  rw [collapseRuns]

theorem dropWhile_dropWhile_self (p : Char → Bool) (l : List Char) :
    (l.dropWhile p).dropWhile p = l.dropWhile p := by
  induction l with
  | nil => rfl
  | cons c rest ih =>
    cases hc : p c
    · simp [List.dropWhile_cons, hc]
    · simp [List.dropWhile_cons, hc, ih]

theorem collapseAux_true_eq (p : Char → Bool) (rep : Char) (l : List Char) :
    collapseAux p rep true l = collapseAux p rep false (l.dropWhile p) := by
  induction l with
  | nil => rfl
  | cons c rest ih =>
    cases hc : p c
    · simp [collapseAux, hc, List.dropWhile_cons]
    · simp [collapseAux, hc, ih, List.dropWhile_cons]

theorem collapseFSM_eq_runs (p : Char → Bool) (rep : Char) :
    ∀ (n : Nat) (l : List Char), l.length ≤ n →
      collapseFSM p rep l = collapseRuns p rep l := by
  intro n
  induction n with
  | zero =>
    intro l h
    have hl : l = [] := List.eq_nil_of_length_eq_zero (Nat.le_zero.mp h)
    subst hl
    simp [collapseFSM, collapseAux, collapseRuns_nil]
  | succ n ih =>
    intro l h
    cases l with
    | nil => simp [collapseFSM, collapseAux, collapseRuns_nil]
    | cons c rest =>
      simp only [List.length_cons, Nat.add_le_add_iff_right] at h
      rw [collapseRuns_cons]
      cases hc : p c
      · rw [if_neg (by simp [hc]), ← ih _ h]
        simp [collapseFSM, collapseAux, hc]
      · have hlen : (rest.dropWhile p).length ≤ n :=
          le_trans (List.dropWhile_sublist p).length_le h
        rw [if_pos (by simp [hc])]
        have l1 : collapseFSM p rep (c :: rest) = rep :: collapseAux p rep true rest := by
          simp [collapseFSM, collapseAux, hc]
        rw [l1, collapseAux_true_eq, ← ih _ hlen]
        rfl

theorem sanitizeCore_eq (name : List Char) :
    sanitizeCore name =
      collapseRuns isUnderscore '_'
        (collapseRuns isSpaceChar '_' (name.filter keepChar)) := by
  unfold sanitizeCore
  rw [collapseFSM_eq_runs isSpaceChar '_' (name.filter keepChar).length _ le_rfl,
    collapseFSM_eq_runs isUnderscore '_'
      (collapseRuns isSpaceChar '_' (name.filter keepChar)).length _ le_rfl]

theorem mem_collapseRuns (p : Char → Bool) (rep : Char) :
    ∀ (n : Nat) (l : List Char), l.length ≤ n → ∀ c ∈ collapseRuns p rep l,
      c = rep ∨ (c ∈ l ∧ p c = false) := by
  intro n
  induction n with
  | zero =>
    intro l h
    have hl : l = [] := List.eq_nil_of_length_eq_zero (Nat.le_zero.mp h)
    subst hl
    intro c hc
    rw [collapseRuns_nil] at hc
    simp at hc
  | succ n ih =>
    intro l h c hc
    cases l with
    | nil =>
      rw [collapseRuns_nil] at hc
      simp at hc
    | cons a rest =>
      simp only [List.length_cons, Nat.add_le_add_iff_right] at h
      rw [collapseRuns_cons] at hc
      cases ha : p a
      · rw [if_neg (by simp [ha])] at hc
        rcases List.mem_cons.mp hc with hc | hc
        · subst hc
          exact Or.inr ⟨List.mem_cons_self _ _, ha⟩
        · rcases ih _ h c hc with h1 | ⟨h1, h2⟩
          · exact Or.inl h1
          · exact Or.inr ⟨List.mem_cons_of_mem _ h1, h2⟩
      · rw [if_pos (by simp [ha])] at hc
        rcases List.mem_cons.mp hc with hc | hc
        · exact Or.inl hc
        · have hlen : (rest.dropWhile p).length ≤ n :=
            le_trans (List.dropWhile_sublist p).length_le h
          rcases ih _ hlen c hc with h1 | ⟨h1, h2⟩
          · exact Or.inl h1
          · exact Or.inr ⟨List.mem_cons_of_mem _ ((List.dropWhile_sublist p).subset h1), h2⟩

theorem collapseRuns_no_p (p : Char → Bool) (rep : Char) :
    ∀ l : List Char, (∀ c ∈ l, p c = false) → collapseRuns p rep l = l := by
  intro l
  induction l with
  | nil => intro _; exact collapseRuns_nil p rep
  | cons c rest ih =>
    intro h
    have hc : p c = false := h c (List.mem_cons_self _ _)
    rw [collapseRuns_cons, if_neg (by simp [hc]),
      ih (fun x hx => h x (List.mem_cons_of_mem _ hx))]

theorem dropWhile_collapseRuns (p : Char → Bool) (rep : Char) (hrep : p rep = true) :
    ∀ (n : Nat) (l : List Char), l.length ≤ n →
      (collapseRuns p rep l).dropWhile p = collapseRuns p rep (l.dropWhile p) := by
  intro n
  induction n with
  | zero =>
    intro l h
    have hl : l = [] := List.eq_nil_of_length_eq_zero (Nat.le_zero.mp h)
    subst hl
    simp [collapseRuns_nil]
  | succ n ih =>
    intro l h
    cases l with
    | nil => simp [collapseRuns_nil]
    | cons c rest =>
      simp only [List.length_cons, Nat.add_le_add_iff_right] at h
      cases hc : p c
      · rw [collapseRuns_cons, if_neg (by simp [hc]), List.dropWhile_cons,
          if_neg (by simp [hc]), List.dropWhile_cons, if_neg (by simp [hc]),
          collapseRuns_cons, if_neg (by simp [hc])]
      · have hlen : (rest.dropWhile p).length ≤ n :=
          le_trans (List.dropWhile_sublist p).length_le h
        rw [collapseRuns_cons, if_pos (by simp [hc]), List.dropWhile_cons,
          if_pos (by simp [hrep]), ih _ hlen, dropWhile_dropWhile_self,
          List.dropWhile_cons, if_pos (by simp [hc])]

theorem collapseRuns_idem (p : Char → Bool) (rep : Char) (hrep : p rep = true) :
    ∀ (n : Nat) (l : List Char), l.length ≤ n →
      collapseRuns p rep (collapseRuns p rep l) = collapseRuns p rep l := by
  intro n
  induction n with
  | zero =>
    intro l h
    have hl : l = [] := List.eq_nil_of_length_eq_zero (Nat.le_zero.mp h)
    subst hl
    simp [collapseRuns_nil]
  | succ n ih =>
    intro l h
    cases l with
    | nil => simp [collapseRuns_nil]
    | cons c rest =>
      simp only [List.length_cons, Nat.add_le_add_iff_right] at h
      cases hc : p c
      · rw [collapseRuns_cons, if_neg (by simp [hc]), collapseRuns_cons,
          if_neg (by simp [hc]), ih _ h]
      · have hlen : (rest.dropWhile p).length ≤ n :=
          le_trans (List.dropWhile_sublist p).length_le h
        rw [collapseRuns_cons, if_pos (by simp [hc]), collapseRuns_cons,
          if_pos (by simp [hrep]), dropWhile_collapseRuns p rep hrep _ _ hlen,
          dropWhile_dropWhile_self, ih _ hlen]

/-! Lemmas about `splitext`. -/

theorem splitextRev_append (rl : List Char) :
    ∀ (acc nm ext : List Char), splitextRev rl acc = some (nm, ext) →
      nm ++ ext = rl.reverse ++ acc := by
  induction rl with
  | nil => intro acc nm ext h; simp [splitextRev] at h
  | cons c rest ih =>
    intro acc nm ext h
    by_cases hc : c = '.'
    · rw [splitextRev, if_pos hc] at h
      injection h with h
      injection h with h1 h2
      subst h1
      subst h2
      subst hc
      simp [List.reverse_cons, List.append_assoc]
    · rw [splitextRev, if_neg hc] at h
      have := ih (c :: acc) nm ext h
      rw [this]
      simp [List.reverse_cons, List.append_assoc]

theorem splitextRev_no_dot (rl : List Char) (h : '.' ∉ rl) :
    ∀ acc, splitextRev rl acc = none := by
  induction rl with
  | nil => intro acc; rfl
  | cons c rest ih =>
    intro acc
    have hc : c ≠ '.' := fun he => h (he ▸ List.mem_cons_self _ _)
    rw [splitextRev, if_neg (fun he => hc he)]
    exact ih (fun hm => h (List.mem_cons_of_mem _ hm)) _

theorem splitextRev_ext (rl : List Char) :
    ∀ (acc nm ext : List Char), splitextRev rl acc = some (nm, ext) → '.' ∉ acc →
      ∃ r, ext = '.' :: r ∧ '.' ∉ r := by
  induction rl with
  | nil => intro acc nm ext h _; simp [splitextRev] at h
  | cons c rest ih =>
    intro acc nm ext h hacc
    by_cases hc : c = '.'
    · rw [splitextRev, if_pos hc] at h
      injection h with h
      injection h with h1 h2
      exact ⟨acc, h2.symm, hacc⟩
    · rw [splitextRev, if_neg hc] at h
      exact ih (c :: acc) nm ext h (by
        intro hm
        rcases List.mem_cons.mp hm with hm | hm
        · exact hc hm.symm
        · exact hacc hm)

theorem splitextRev_skip (s : List Char) (h : '.' ∉ s) :
    ∀ (rest acc : List Char),
      splitextRev (s ++ rest) acc = splitextRev rest (s.reverse ++ acc) := by
  induction s with
  | nil => intro rest acc; simp
  | cons c s2 ih =>
    intro rest acc
    have hc : c ≠ '.' := fun he => h (he ▸ List.mem_cons_self _ _)
    rw [List.cons_append, splitextRev, if_neg hc,
      ih (fun hm => h (List.mem_cons_of_mem _ hm)) rest (c :: acc)]
    simp [List.reverse_cons, List.append_assoc]

theorem splitext_eq_of_rev_none (f : FName) (h : splitextRev f.reverse [] = none) :
    splitext f = (f, []) := by
  unfold splitext
  rw [h]

theorem splitext_eq_of_rev_some (f : FName) (nm ext : List Char)
    (h : splitextRev f.reverse [] = some (nm, ext)) :
    splitext f =
      if nm.any (fun c => decide (c ≠ '.')) = true then (nm, ext) else (f, []) := by
  unfold splitext
  rw [h]

theorem splitext_append (f : FName) : (splitext f).1 ++ (splitext f).2 = f := by
  cases h : splitextRev f.reverse [] with
  | none => rw [splitext_eq_of_rev_none f h]; simp
  | some pr =>
    obtain ⟨nm, ext⟩ := pr
    have h2 := splitextRev_append f.reverse [] nm ext h
    rw [splitext_eq_of_rev_some f nm ext h]
    split
    · simpa using h2
    · simp

theorem splitext_ext (f : FName) :
    (splitext f).2 = [] ∨ ∃ r, (splitext f).2 = '.' :: r ∧ '.' ∉ r := by
  cases h : splitextRev f.reverse [] with
  | none => rw [splitext_eq_of_rev_none f h]; exact Or.inl rfl
  | some pr =>
    obtain ⟨nm, ext⟩ := pr
    rw [splitext_eq_of_rev_some f nm ext h]
    split
    · exact Or.inr (splitextRev_ext f.reverse [] nm ext h (by simp))
    · exact Or.inl rfl

theorem splitext_clean (nm ext : FName) (hne : nm ≠ []) (hnd : '.' ∉ nm)
    (hext : ext = [] ∨ ∃ r, ext = '.' :: r ∧ '.' ∉ r) :
    splitext (nm ++ ext) = (nm, ext) := by
  rcases hext with hext | ⟨r, hext, hr⟩
  · subst hext
    rw [List.append_nil]
    unfold splitext
    rw [splitextRev_no_dot nm.reverse (by simpa using hnd) []]
  · subst hext
    unfold splitext
    have hrev : (nm ++ '.' :: r).reverse = r.reverse ++ ('.' :: nm.reverse) := by
      simp [List.reverse_append, List.reverse_cons, List.append_assoc]
    rw [hrev, splitextRev_skip r.reverse (by simpa using hr) ('.' :: nm.reverse) []]
    simp only [List.reverse_reverse, List.append_nil]
    rw [splitextRev, if_pos rfl]
    simp only [List.reverse_reverse]
    obtain ⟨c, hc⟩ := List.exists_mem_of_ne_nil nm hne
    rw [if_pos (List.any_eq_true.mpr ⟨c, hc, by
      simp only [decide_eq_true_eq]
      exact fun he => hnd (he ▸ hc)⟩)]

/-! Lemmas about `sanitizeCore` and idempotence of `sanitize_filename`. -/

theorem mem_sanitizeCore (name : List Char) (c : Char) (hc : c ∈ sanitizeCore name) :
    keepChar c = true ∧ isSpaceChar c = false ∧ c ≠ '.' := by
  rw [sanitizeCore_eq] at hc
  rcases mem_collapseRuns isUnderscore '_' _ _ le_rfl c hc with h | ⟨h1, _⟩
  · subst h
    refine ⟨by decide, by decide, by decide⟩
  · rcases mem_collapseRuns isSpaceChar '_' _ _ le_rfl c h1 with h | ⟨h3, h4⟩
    · subst h
      refine ⟨by decide, by decide, by decide⟩
    · have hkeep : keepChar c = true := (List.mem_filter.mp h3).2
      refine ⟨hkeep, h4, ?_⟩
      intro he
      subst he
      simp [keepChar, isWordChar, isSpaceChar] at hkeep

theorem sanitizeCore_fixed (name : List Char) :
    sanitizeCore (sanitizeCore name) = sanitizeCore name := by
  conv_lhs => rw [sanitizeCore_eq]
  rw [List.filter_eq_self.mpr (fun c hc => (mem_sanitizeCore name c hc).1),
    collapseRuns_no_p isSpaceChar '_' _ (fun c hc => (mem_sanitizeCore name c hc).2.1)]
  conv_lhs => rw [sanitizeCore_eq]
  conv_rhs => rw [sanitizeCore_eq]
  exact collapseRuns_idem isUnderscore '_' (by decide) _ _ le_rfl

/-! Pointwise agreement of the code's character class with the spec's wording. -/

theorem keepChar_eq_isAllowedSpec (c : Char) : keepChar c = isAllowedSpec c := by
  unfold keepChar isWordChar isSpaceChar isAllowedSpec
  cases h1 : c.isAlphanum <;> cases h2 : c.isWhitespace <;>
    cases h3 : (c == '\x0b') <;> cases h4 : (c == '\x0c') <;>
    cases h5 : (c == '-') <;> cases h6 : (c == '_') <;> rfl

/-! Step lemmas for the loop body of `rename_files`. -/

theorem processEntry_noop (pat : Pattern) (d : FName) (dry : Bool) (acc : RunResult)
    (ie : Nat × Entry) (h : applyPattern pat d ie.1 ie.2.name = ie.2.name) :
    processEntry pat d dry acc ie = acc := by
  simp [processEntry, h]

theorem processEntry_skip (pat : Pattern) (d : FName) (dry : Bool) (acc : RunResult)
    (ie : Nat × Entry) (h1 : applyPattern pat d ie.1 ie.2.name ≠ ie.2.name)
    (h2 : existsName (applyPattern pat d ie.1 ie.2.name) acc.files = true) :
    processEntry pat d dry acc ie =
      { acc with skipped := acc.skipped ++ [(ie.2.name, applyPattern pat d ie.1 ie.2.name)] } := by
  simp [processEntry, h1, h2]

theorem processEntry_plan_dry (pat : Pattern) (d : FName) (acc : RunResult)
    (ie : Nat × Entry) (h1 : applyPattern pat d ie.1 ie.2.name ≠ ie.2.name)
    (h2 : existsName (applyPattern pat d ie.1 ie.2.name) acc.files = false) :
    processEntry pat d true acc ie =
      { acc with plan := acc.plan ++ [(ie.2.name, applyPattern pat d ie.1 ie.2.name)] } := by
  simp [processEntry, h1, h2]

theorem processEntry_plan_exec (pat : Pattern) (d : FName) (acc : RunResult)
    (ie : Nat × Entry) (h1 : applyPattern pat d ie.1 ie.2.name ≠ ie.2.name)
    (h2 : existsName (applyPattern pat d ie.1 ie.2.name) acc.files = false) :
    processEntry pat d false acc ie =
      { acc with
          plan := acc.plan ++ [(ie.2.name, applyPattern pat d ie.1 ie.2.name)],
          renamed_count := acc.renamed_count + 1,
          files := renameIn acc.files ie.2.name (applyPattern pat d ie.1 ie.2.name) } := by
  simp [processEntry, h1, h2]

/-! Closed form of a dry run: the directory never changes, the plan and the
skip reports are pointwise functions of the initial directory, and the
reported count stays zero. -/

theorem foldl_dry (pat : Pattern) (d : FName) (files0 : List Entry) :
    ∀ (l : List (Nat × Entry)) (acc : RunResult), acc.files = files0 →
      l.foldl (processEntry pat d true) acc =
        { plan := acc.plan ++ l.filterMap (dryPlanStep pat d files0),
          skipped := acc.skipped ++ l.filterMap (drySkipStep pat d files0),
          renamed_count := acc.renamed_count,
          files := acc.files } := by
  intro l
  induction l with
  | nil => intro acc _; simp
  | cons ie rest ih =>
    intro acc hacc
    rw [List.foldl_cons]
    by_cases h1 : applyPattern pat d ie.1 ie.2.name = ie.2.name
    · rw [processEntry_noop pat d true acc ie h1, ih acc hacc]
      simp [List.filterMap_cons, dryPlanStep, drySkipStep, h1]
    · cases h2 : existsName (applyPattern pat d ie.1 ie.2.name) acc.files
      · rw [processEntry_plan_dry pat d acc ie h1 h2,
          ih { acc with
                 plan := acc.plan ++ [(ie.2.name, applyPattern pat d ie.1 ie.2.name)] } hacc]
        simp [List.filterMap_cons, dryPlanStep, drySkipStep, h1, hacc ▸ h2,
          List.append_assoc]
      · rw [processEntry_skip pat d true acc ie h1 h2,
          ih { acc with
                 skipped := acc.skipped ++ [(ie.2.name, applyPattern pat d ie.1 ie.2.name)] } hacc]
        simp [List.filterMap_cons, dryPlanStep, drySkipStep, h1, hacc ▸ h2,
          List.append_assoc]

/-! Count bookkeeping and membership lemmas for the loop. -/

theorem foldl_exec_count (pat : Pattern) (d : FName) :
    ∀ (l : List (Nat × Entry)) (acc : RunResult),
      (l.foldl (processEntry pat d false) acc).renamed_count + acc.plan.length =
        (l.foldl (processEntry pat d false) acc).plan.length + acc.renamed_count := by
  intro l
  induction l with
  | nil => intro acc; simp [List.foldl_nil]; omega
  | cons ie rest ih =>
    intro acc
    rw [List.foldl_cons]
    by_cases h1 : applyPattern pat d ie.1 ie.2.name = ie.2.name
    · rw [processEntry_noop pat d false acc ie h1]
      exact ih acc
    · cases h2 : existsName (applyPattern pat d ie.1 ie.2.name) acc.files
      · rw [processEntry_plan_exec pat d acc ie h1 h2]
        have h3 := ih { acc with
          plan := acc.plan ++ [(ie.2.name, applyPattern pat d ie.1 ie.2.name)],
          renamed_count := acc.renamed_count + 1,
          files := renameIn acc.files ie.2.name (applyPattern pat d ie.1 ie.2.name) }
        simp only [List.length_append, List.length_cons, List.length_nil] at h3
        omega
      · rw [processEntry_skip pat d false acc ie h1 h2]
        exact ih _

theorem mem_foldl_plan (pat : Pattern) (d : FName) (dry : Bool) :
    ∀ (l : List (Nat × Entry)) (acc : RunResult) (pr : FName × FName),
      pr ∈ (l.foldl (processEntry pat d dry) acc).plan →
      pr ∈ acc.plan ∨ (pr.2 ≠ pr.1 ∧ pr.1 ∈ l.map (fun ie => ie.2.name)) := by
  intro l
  induction l with
  | nil => intro acc pr h; exact Or.inl h
  | cons ie rest ih =>
    intro acc pr h
    rw [List.foldl_cons] at h
    by_cases h1 : applyPattern pat d ie.1 ie.2.name = ie.2.name
    · rw [processEntry_noop pat d dry acc ie h1] at h
      rcases ih acc pr h with h | ⟨ha, hb⟩
      · exact Or.inl h
      · exact Or.inr ⟨ha, by rw [List.map_cons]; exact List.mem_cons_of_mem _ hb⟩
    · cases h2 : existsName (applyPattern pat d ie.1 ie.2.name) acc.files
      · cases dry with
        | false =>
          rw [processEntry_plan_exec pat d acc ie h1 h2] at h
          rcases ih _ pr h with h | ⟨ha, hb⟩
          · rcases List.mem_append.mp h with h | h
            · exact Or.inl h
            · have hpr := List.mem_singleton.mp h
              subst hpr
              exact Or.inr ⟨h1, by rw [List.map_cons]; exact List.mem_cons_self _ _⟩
          · exact Or.inr ⟨ha, by rw [List.map_cons]; exact List.mem_cons_of_mem _ hb⟩
        | true =>
          rw [processEntry_plan_dry pat d acc ie h1 h2] at h
          rcases ih _ pr h with h | ⟨ha, hb⟩
          · rcases List.mem_append.mp h with h | h
            · exact Or.inl h
            · have hpr := List.mem_singleton.mp h
              subst hpr
              exact Or.inr ⟨h1, by rw [List.map_cons]; exact List.mem_cons_self _ _⟩
          · exact Or.inr ⟨ha, by rw [List.map_cons]; exact List.mem_cons_of_mem _ hb⟩
      · rw [processEntry_skip pat d dry acc ie h1 h2] at h
        rcases ih _ pr h with h | ⟨ha, hb⟩
        · exact Or.inl h
        · exact Or.inr ⟨ha, by rw [List.map_cons]; exact List.mem_cons_of_mem _ hb⟩

theorem mem_foldl_skipped (pat : Pattern) (d : FName) (dry : Bool) :
    ∀ (l : List (Nat × Entry)) (acc : RunResult) (pr : FName × FName),
      pr ∈ (l.foldl (processEntry pat d dry) acc).skipped →
      pr ∈ acc.skipped ∨ (pr.2 ≠ pr.1 ∧ pr.1 ∈ l.map (fun ie => ie.2.name)) := by
  intro l
  induction l with
  | nil => intro acc pr h; exact Or.inl h
  | cons ie rest ih =>
    intro acc pr h
    rw [List.foldl_cons] at h
    by_cases h1 : applyPattern pat d ie.1 ie.2.name = ie.2.name
    · rw [processEntry_noop pat d dry acc ie h1] at h
      rcases ih acc pr h with h | ⟨ha, hb⟩
      · exact Or.inl h
      · exact Or.inr ⟨ha, by rw [List.map_cons]; exact List.mem_cons_of_mem _ hb⟩
    · cases h2 : existsName (applyPattern pat d ie.1 ie.2.name) acc.files
      · cases dry with
        | false =>
          rw [processEntry_plan_exec pat d acc ie h1 h2] at h
          rcases ih _ pr h with h | ⟨ha, hb⟩
          · exact Or.inl h
          · exact Or.inr ⟨ha, by rw [List.map_cons]; exact List.mem_cons_of_mem _ hb⟩
        | true =>
          rw [processEntry_plan_dry pat d acc ie h1 h2] at h
          rcases ih _ pr h with h | ⟨ha, hb⟩
          · exact Or.inl h
          · exact Or.inr ⟨ha, by rw [List.map_cons]; exact List.mem_cons_of_mem _ hb⟩
      · rw [processEntry_skip pat d dry acc ie h1 h2] at h
        rcases ih _ pr h with h | ⟨ha, hb⟩
        · rcases List.mem_append.mp h with h | h
          · exact Or.inl h
          · have hpr := List.mem_singleton.mp h
            subst hpr
            exact Or.inr ⟨h1, by rw [List.map_cons]; exact List.mem_cons_self _ _⟩
        · exact Or.inr ⟨ha, by rw [List.map_cons]; exact List.mem_cons_of_mem _ hb⟩

theorem foldl_skipped_mono (pat : Pattern) (d : FName) (dry : Bool) :
    ∀ (l : List (Nat × Entry)) (acc : RunResult) (pr : FName × FName),
      pr ∈ acc.skipped → pr ∈ (l.foldl (processEntry pat d dry) acc).skipped := by
  intro l
  induction l with
  | nil => intro acc pr h; exact h
  | cons ie rest ih =>
    intro acc pr h
    rw [List.foldl_cons]
    by_cases h1 : applyPattern pat d ie.1 ie.2.name = ie.2.name
    · rw [processEntry_noop pat d dry acc ie h1]
      exact ih acc pr h
    · cases h2 : existsName (applyPattern pat d ie.1 ie.2.name) acc.files
      · cases dry with
        | false =>
          rw [processEntry_plan_exec pat d acc ie h1 h2]
          exact ih _ pr h
        | true =>
          rw [processEntry_plan_dry pat d acc ie h1 h2]
          exact ih _ pr h
      · rw [processEntry_skip pat d dry acc ie h1 h2]
        exact ih _ pr (List.mem_append_left _ h)

theorem noop_mem_files (pat : Pattern) (d : FName) (dry : Bool) :
    ∀ (l : List (Nat × Entry)) (acc : RunResult) (e : Entry), e ∈ acc.files →
      (∀ ie ∈ l, ie.2.name = e.name → applyPattern pat d ie.1 ie.2.name = ie.2.name) →
      e ∈ (l.foldl (processEntry pat d dry) acc).files := by
  intro l
  induction l with
  | nil => intro acc e he _; exact he
  | cons ie rest ih =>
    intro acc e he hno
    rw [List.foldl_cons]
    have htail : ∀ ie2 ∈ rest, ie2.2.name = e.name →
        applyPattern pat d ie2.1 ie2.2.name = ie2.2.name :=
      fun ie2 h2 => hno ie2 (List.mem_cons_of_mem _ h2)
    by_cases h1 : applyPattern pat d ie.1 ie.2.name = ie.2.name
    · rw [processEntry_noop pat d dry acc ie h1]
      exact ih acc e he htail
    · have hne : ie.2.name ≠ e.name := fun hh => h1 (hno ie (List.mem_cons_self _ _) hh)
      cases h2 : existsName (applyPattern pat d ie.1 ie.2.name) acc.files
      · cases dry with
        | false =>
          rw [processEntry_plan_exec pat d acc ie h1 h2]
          refine ih _ e ?_ htail
          show e ∈ renameIn acc.files ie.2.name (applyPattern pat d ie.1 ie.2.name)
          rw [renameIn]
          refine List.mem_map.mpr ⟨e, he, ?_⟩
          rw [if_neg (fun hh => hne hh.symm)]
        | true =>
          rw [processEntry_plan_dry pat d acc ie h1 h2]
          exact ih _ e he htail
      · rw [processEntry_skip pat d dry acc ie h1 h2]
        exact ih _ e he htail

/-! Lemmas about `existsName` and `renameIn`. -/

theorem existsName_eq_false_iff (nm : FName) (fs : List Entry) :
    existsName nm fs = false ↔ ∀ e ∈ fs, e.name ≠ nm := by
  rw [existsName, List.any_eq_false]
  simp

theorem existsName_renameIn_false (fs : List Entry) (o n t : FName)
    (h1 : existsName t fs = false) (h2 : t ≠ n) :
    existsName t (renameIn fs o n) = false := by
  rw [existsName_eq_false_iff] at h1 ⊢
  intro e he
  rw [renameIn] at he
  rcases List.mem_map.mp he with ⟨a, ha, rfl⟩
  by_cases hao : a.name = o
  · rw [if_pos hao]
    exact fun hh => h2 hh.symm
  · rw [if_neg hao]
    exact h1 a ha

/-! A clean execute run: when every entry changes its name, no proposed target
exists in the directory at the start, and the proposed targets are pairwise
distinct, every entry is planned and renamed. -/

theorem foldl_exec_clean (pat : Pattern) (d : FName) :
    ∀ (l : List (Nat × Entry)) (acc : RunResult),
      (∀ ie ∈ l, applyPattern pat d ie.1 ie.2.name ≠ ie.2.name) →
      (∀ ie ∈ l, existsName (applyPattern pat d ie.1 ie.2.name) acc.files = false) →
      l.Pairwise
        (fun a b => applyPattern pat d a.1 a.2.name ≠ applyPattern pat d b.1 b.2.name) →
      l.foldl (processEntry pat d false) acc =
        { plan := acc.plan ++ l.map (fun ie => (ie.2.name, applyPattern pat d ie.1 ie.2.name)),
          skipped := acc.skipped,
          renamed_count := acc.renamed_count + l.length,
          files := l.foldl
            (fun fs ie => renameIn fs ie.2.name (applyPattern pat d ie.1 ie.2.name))
            acc.files } := by
  intro l
  induction l with
  | nil => intro acc _ _ _; simp
  | cons ie rest ih =>
    intro acc h1 h2 hpw
    rcases List.pairwise_cons.mp hpw with ⟨hhead, htail⟩
    rw [List.foldl_cons,
      processEntry_plan_exec pat d acc ie (h1 ie (List.mem_cons_self _ _))
        (h2 ie (List.mem_cons_self _ _)),
      ih { acc with
             plan := acc.plan ++ [(ie.2.name, applyPattern pat d ie.1 ie.2.name)],
             renamed_count := acc.renamed_count + 1,
             files := renameIn acc.files ie.2.name (applyPattern pat d ie.1 ie.2.name) }
        (fun ie2 hm => h1 ie2 (List.mem_cons_of_mem _ hm))
        (fun ie2 hm =>
          existsName_renameIn_false acc.files ie.2.name
            (applyPattern pat d ie.1 ie.2.name) (applyPattern pat d ie2.1 ie2.2.name)
            (h2 ie2 (List.mem_cons_of_mem _ hm)) (Ne.symm (hhead ie2 hm)))
        htail]
    simp only [List.map_cons, List.append_assoc, List.singleton_append,
      List.length_cons, List.foldl_cons, RunResult.mk.injEq]
    refine ⟨trivial, trivial, by omega, trivial⟩

/-! With an empty pattern every entry is a no-op. -/

theorem applyPattern_of_empty (pat : Pattern) (h : patternIsEmpty pat = true)
    (d : FName) (i : Nat) (f : FName) : applyPattern pat d i f = f := by
  unfold patternIsEmpty at h
  simp only [Bool.and_eq_true, Bool.not_eq_true', Option.isNone_iff_eq_none] at h
  obtain ⟨⟨⟨⟨⟨hs, hr⟩, hp⟩, hsu⟩, hsq⟩, hd⟩ := h
  simp [applyPattern, hs, hr, hp, hsu, hsq, hd]

theorem foldl_noop (pat : Pattern) (d : FName) (dry : Bool)
    (h : ∀ i f, applyPattern pat d i f = f) :
    ∀ (l : List (Nat × Entry)) (acc : RunResult),
      l.foldl (processEntry pat d dry) acc = acc := by
  intro l
  induction l with
  | nil => intro acc; rfl
  | cons ie rest ih =>
    intro acc
    rw [List.foldl_cons, processEntry_noop pat d dry acc ie (h ie.1 ie.2.name)]
    exact ih acc

/-! Order lemmas for the path sort. -/

theorem nameLe_total : ∀ a b : FName, nameLe a b = true ∨ nameLe b a = true := by
  intro a
  induction a with
  | nil => intro b; exact Or.inl rfl
  | cons x as ih =>
    intro b
    cases b with
    | nil => exact Or.inr rfl
    | cons y bs =>
      by_cases hxy : x = y
      · subst hxy
        rcases ih bs with h | h
        · exact Or.inl (by simp [nameLe, h])
        · exact Or.inr (by simp [nameLe, h])
      · rcases lt_or_gt_of_ne hxy with hlt | hgt
        · exact Or.inl (by simp [nameLe, hxy, hlt])
        · exact Or.inr (by simp [nameLe, Ne.symm hxy, hgt])

theorem nameLe_trans :
    ∀ a b c : FName, nameLe a b = true → nameLe b c = true → nameLe a c = true := by
  intro a
  induction a with
  | nil => intro b c _ _; rfl
  | cons x as ih =>
    intro b c hab hbc
    cases b with
    | nil => simp [nameLe] at hab
    | cons y bs =>
      cases c with
      | nil => simp [nameLe] at hbc
      | cons z cs =>
        by_cases hxy : x = y
        · subst hxy
          simp only [nameLe, if_pos rfl] at hab
          by_cases hyz : x = z
          · subst hyz
            simp only [nameLe, if_pos rfl] at hbc ⊢
            exact ih bs cs hab hbc
          · simp only [nameLe, if_neg hyz] at hbc ⊢
            exact hbc
        · simp only [nameLe, if_neg hxy] at hab
          have hlt : x < y := of_decide_eq_true hab
          by_cases hyz : y = z
          · subst hyz
            simp only [nameLe, if_neg hxy]
            exact hab
          · simp only [nameLe, if_neg hyz] at hbc
            have hlt2 : y < z := of_decide_eq_true hbc
            have hxz : x < z := lt_trans hlt hlt2
            simp only [nameLe, if_neg (ne_of_lt hxz)]
            exact decide_eq_true hxz

theorem insertSorted_perm (e : Entry) :
    ∀ l : List Entry, (insertSorted e l).Perm (e :: l) := by
  intro l
  induction l with
  | nil => exact List.Perm.refl _
  | cons f rest ih =>
    rw [insertSorted]
    by_cases h : nameLe f.name e.name = true
    · rw [if_pos h]
      exact (ih.cons f).trans (List.Perm.swap e f rest)
    · rw [if_neg h]

theorem sortFiles_perm (l : List Entry) : (sortFiles l).Perm l := by
  induction l with
  | nil => exact List.Perm.refl _
  | cons e rest ih =>
    show (insertSorted e (sortFiles rest)).Perm (e :: rest)
    exact (insertSorted_perm e (sortFiles rest)).trans (ih.cons e)

theorem insertSorted_pairwise (e : Entry) :
    ∀ l : List Entry,
      List.Pairwise (fun a b : Entry => nameLe a.name b.name = true) l →
      List.Pairwise (fun a b : Entry => nameLe a.name b.name = true) (insertSorted e l) := by
  intro l
  induction l with
  | nil => intro _; simp [insertSorted]
  | cons f rest ih =>
    intro hp
    rcases List.pairwise_cons.mp hp with ⟨hf, hrest⟩
    rw [insertSorted]
    by_cases h : nameLe f.name e.name = true
    · rw [if_pos h]
      refine List.pairwise_cons.mpr ⟨?_, ih hrest⟩
      intro y hy
      have hmem : y ∈ e :: rest := (insertSorted_perm e rest).mem_iff.mp hy
      rcases List.mem_cons.mp hmem with rfl | hy2
      · exact h
      · exact hf y hy2
    · rw [if_neg h]
      have he : nameLe e.name f.name = true :=
        (nameLe_total f.name e.name).resolve_left h
      refine List.pairwise_cons.mpr ⟨?_, hp⟩
      intro y hy
      rcases List.mem_cons.mp hy with rfl | hy2
      · exact he
      · exact nameLe_trans e.name f.name y.name he (hf y hy2)

theorem sortFiles_sorted (l : List Entry) :
    List.Pairwise (fun a b : Entry => nameLe a.name b.name = true) (sortFiles l) := by
  induction l with
  | nil => exact List.Pairwise.nil
  | cons e rest ih => exact insertSorted_pairwise e (sortFiles rest) ih

/-! The sequential transform always changes the name. -/

theorem add_sequential_number_ne (f : FName) (i w : Nat) :
    add_sequential_number f i w ≠ f := by
  intro h
  have hsp := congrArg List.length (splitext_append f)
  have hlen := congrArg List.length h
  simp only [add_sequential_number, List.length_append, List.length_cons] at hlen
  simp only [List.length_append] at hsp
  omega

/-! Claim theorems. -/

/-- Claim C1 (code bug exhibit): in dry-run mode `renamed_count` is only
incremented inside the `if not dry_run` branch, so the final report line
prints 0 even though the plan lists one entry that would be renamed.  With a
single file `a.txt` and an enabled `prefix "X"` transform, the dry run prints
the pair `a.txt → Xa.txt` but reports a count of 0, contradicting the claim
that the dry-run count equals the number of entries in the printed plan. -/
theorem C1_dry_run_count_reports_zero :
    (rename_files
        { sanitize := false, replace := none, pre := some (("X").toList),
          suff := none, sequential := false, digits := 3, date := false } [] true
        [⟨("a.txt").toList, 0⟩]).plan =
      [(("a.txt").toList, ("Xa.txt").toList)] ∧
    (rename_files
        { sanitize := false, replace := none, pre := some (("X").toList),
          suff := none, sequential := false, digits := 3, date := false } [] true
        [⟨("a.txt").toList, 0⟩]).renamed_count = 0 := by
  decide

/-- Claim C2: a dry run performs no filesystem mutation: for every pattern,
date string and directory, the directory contents after the run are exactly
the contents before. -/
theorem C2_dry_run_never_mutates (pat : Pattern) (d : FName) (files : List Entry) :
    (rename_files pat d true files).files = files := by
  unfold rename_files
  rw [foldl_dry pat d files _ _ rfl]

/-- Claim C4: for every filename and configuration, the proposed name computed
by the loop's transformation chain equals the left-to-right composition of
exactly the enabled transforms in the fixed order sanitize, replace, prefix,
suffix, sequential number, date stamp. -/
theorem C4_transforms_compose_in_fixed_order (pat : Pattern) (dateStr : FName)
    (idx : Nat) (f : FName) :
    applyPattern pat dateStr idx f = composeEnabled pat dateStr idx f := by
  cases pat with
  | mk s r p su sq dg dt =>
    cases s <;> cases r <;> cases p <;> cases su <;> cases sq <;> cases dt <;> rfl

/-- Claim C5 counterexample: sanitize is not idempotent on the code.  For
`#.txt` the stem `#` sanitizes to the empty string, giving `.txt`; a second
application treats `.txt` as a leading-dot name with no extension and strips
the dot, giving `txt`. -/
theorem C5_sanitize_idempotent_counterexample :
    sanitize_filename (sanitize_filename (("#.txt").toList)) ≠
      sanitize_filename (("#.txt").toList) := by
  decide

/-- Claim C5 (amended): sanitize is idempotent on every filename whose stem
sanitizes to a nonempty string (the counterexample forces exactly the
empty-stem exclusion). -/
theorem C5_sanitize_idempotent_on_nonempty_stem (f : FName)
    (h : sanitizeCore (splitext f).1 ≠ []) :
    sanitize_filename (sanitize_filename f) = sanitize_filename f := by
  have hdot : '.' ∉ sanitizeCore (splitext f).1 :=
    fun hc => (mem_sanitizeCore _ _ hc).2.2 rfl
  have hsp : splitext (sanitizeCore (splitext f).1 ++ (splitext f).2) =
      (sanitizeCore (splitext f).1, (splitext f).2) :=
    splitext_clean _ _ h hdot (splitext_ext f)
  have key : sanitize_filename (sanitizeCore (splitext f).1 ++ (splitext f).2) =
      sanitizeCore (sanitizeCore (splitext f).1) ++ (splitext f).2 := by
    show sanitizeCore (splitext (sanitizeCore (splitext f).1 ++ (splitext f).2)).1 ++
        (splitext (sanitizeCore (splitext f).1 ++ (splitext f).2)).2 = _
    rw [hsp]
  calc sanitize_filename (sanitize_filename f)
      = sanitize_filename (sanitizeCore (splitext f).1 ++ (splitext f).2) := rfl
    _ = sanitizeCore (sanitizeCore (splitext f).1) ++ (splitext f).2 := key
    _ = sanitizeCore (splitext f).1 ++ (splitext f).2 := by rw [sanitizeCore_fixed]
    _ = sanitize_filename f := rfl

/-- Witness for the amended C5 at the concrete filename `a.txt`. -/
theorem C5_sanitize_idempotent_on_nonempty_stem_witness :
    sanitizeCore (splitext (("a.txt").toList)).1 ≠ [] ∧
    sanitize_filename (sanitize_filename (("a.txt").toList)) =
      sanitize_filename (("a.txt").toList) :=
  ⟨by decide, C5_sanitize_idempotent_on_nonempty_stem (("a.txt").toList) (by decide)⟩

/-- Claim C6: sanitize strips the extension, removes every character that is
not alphanumeric, whitespace, hyphen, or underscore, collapses whitespace
runs to a single underscore, collapses underscore runs, and reattaches the
extension unchanged; in particular `My Photo #1.jpg` becomes
`My_Photo_1.jpg`. -/
theorem C6_sanitize_matches_spec_description :
    (∀ f : FName, sanitize_filename f = sanitizeSpec f) ∧
    sanitize_filename (("My Photo #1.jpg").toList) = ("My_Photo_1.jpg").toList := by
  constructor
  · intro f
    show sanitizeCore (splitext f).1 ++ (splitext f).2 =
      collapseRuns isUnderscore '_'
        (collapseRuns isSpaceChar '_' ((splitext f).1.filter isAllowedSpec)) ++
        (splitext f).2
    rw [sanitizeCore_eq,
      show (splitext f).1.filter keepChar = (splitext f).1.filter isAllowedSpec from
        List.filter_congr (fun c _ => keepChar_eq_isAllowedSpec c)]
  · decide

/-- Claim C3: with only the sequential transform enabled (width `w`), provided
no proposed target collides with a pre-existing file and the proposed targets
are pairwise distinct, the execute run plans every entry of the path-sorted
listing with 1-based index `i` mapped to the original name plus `_` and the
index zero-padded to `w` digits before the extension, reports a renamed count
equal to the number of files, and the listing used is an ascending
permutation of the directory. -/
theorem C3_sequential_assigns_sorted_indices (files : List Entry) (w : Nat) (d : FName)
    (hfresh : ∀ ie ∈ enumerateFrom1 (sortFiles files),
      existsName (add_sequential_number ie.2.name ie.1 w) files = false)
    (hdist : ((enumerateFrom1 (sortFiles files)).map
      (fun ie => add_sequential_number ie.2.name ie.1 w)).Nodup) :
    (rename_files (patSeq w) d false files).plan =
      (enumerateFrom1 (sortFiles files)).map
        (fun ie => (ie.2.name, add_sequential_number ie.2.name ie.1 w)) ∧
    (rename_files (patSeq w) d false files).renamed_count = files.length ∧
    List.Pairwise (fun a b : Entry => nameLe a.name b.name = true) (sortFiles files) ∧
    (sortFiles files).Perm files := by
  have happ : ∀ (i : Nat) (f : FName),
      applyPattern (patSeq w) d i f = add_sequential_number f i w := fun i f => rfl
  have hrun := foldl_exec_clean (patSeq w) d (enumerateFrom1 (sortFiles files))
    { plan := [], skipped := [], renamed_count := 0, files := files }
    (fun ie _ => by rw [happ]; exact add_sequential_number_ne ie.2.name ie.1 w)
    (fun ie hm => by rw [happ]; exact hfresh ie hm)
    (by
      have hpw := List.pairwise_map.mp hdist
      exact hpw.imp (fun hab => by rw [happ, happ]; exact hab))
  refine ⟨?_, ?_, sortFiles_sorted files, sortFiles_perm files⟩
  · show (rename_files (patSeq w) d false files).plan = _
    unfold rename_files
    rw [hrun]
    simp only [happ, List.nil_append]
  · unfold rename_files
    rw [hrun]
    show 0 + (enumerateFrom1 (sortFiles files)).length = files.length
    simp [enumerateFrom1, List.enum_length, (sortFiles_perm files).length_eq]

/-- Witness for C3 at the specification's end-to-end example: `a.txt`,
`b.txt`, `c.txt`, width 2, execute mode. -/
theorem C3_sequential_assigns_sorted_indices_witness :
    (∀ ie ∈ enumerateFrom1 (sortFiles
        [⟨("a.txt").toList, 0⟩, ⟨("b.txt").toList, 1⟩, ⟨("c.txt").toList, 2⟩]),
      existsName (add_sequential_number ie.2.name ie.1 2)
        [⟨("a.txt").toList, 0⟩, ⟨("b.txt").toList, 1⟩, ⟨("c.txt").toList, 2⟩] = false) ∧
    (rename_files (patSeq 2) [] false
        [⟨("a.txt").toList, 0⟩, ⟨("b.txt").toList, 1⟩,
         ⟨("c.txt").toList, 2⟩]).renamed_count = 3 ∧
    (rename_files (patSeq 2) [] false
        [⟨("a.txt").toList, 0⟩, ⟨("b.txt").toList, 1⟩, ⟨("c.txt").toList, 2⟩]).files =
      [⟨("a_01.txt").toList, 0⟩, ⟨("b_02.txt").toList, 1⟩, ⟨("c_03.txt").toList, 2⟩] :=
  ⟨by decide,
   (C3_sequential_assigns_sorted_indices
      [⟨("a.txt").toList, 0⟩, ⟨("b.txt").toList, 1⟩, ⟨("c.txt").toList, 2⟩] 2 []
      (by decide) (by decide)).2.1,
   by decide⟩

/-- Claim C7: an entry whose composed transform equals its original name is
excluded: every printed plan pair and every skip report changes the name, a
file that no transform would rename is still present and untouched at the
end of any run, and the final count is 0 in dry-run mode and exactly the
number of planned entries in execute mode. -/
theorem C7_noop_entries_excluded (pat : Pattern) (d : FName) (dry : Bool)
    (files : List Entry) :
    (∀ pr ∈ (rename_files pat d dry files).plan, pr.2 ≠ pr.1) ∧
    (∀ pr ∈ (rename_files pat d dry files).skipped, pr.2 ≠ pr.1) ∧
    (∀ e ∈ files, (∀ i, applyPattern pat d i e.name = e.name) →
      e ∈ (rename_files pat d dry files).files) ∧
    (rename_files pat d dry files).renamed_count =
      (if dry then 0 else (rename_files pat d dry files).plan.length) := by
  refine ⟨?_, ?_, ?_, ?_⟩
  · intro pr hpr
    rcases mem_foldl_plan pat d dry _ _ pr hpr with h | ⟨h, _⟩
    · simp at h
    · exact h
  · intro pr hpr
    rcases mem_foldl_skipped pat d dry _ _ pr hpr with h | ⟨h, _⟩
    · simp at h
    · exact h
  · intro e he hid
    exact noop_mem_files pat d dry _ _ e he
      (fun ie _ hname => by rw [hname]; exact hid ie.1)
  · cases dry with
    | true =>
      unfold rename_files
      rw [foldl_dry pat d files _ _ rfl]
      rfl
    | false =>
      have h := foldl_exec_count pat d (enumerateFrom1 (sortFiles files))
        { plan := [], skipped := [], renamed_count := 0, files := files }
      unfold rename_files
      simpa using h

/-- Witness for C7: with the empty pattern every transform is disabled, the
single file `a.txt` is a no-op for every index and survives a dry run. -/
theorem C7_noop_entries_excluded_witness :
    (∀ i : Nat, applyPattern patNone [] i (("a.txt").toList) = ("a.txt").toList) ∧
    (⟨("a.txt").toList, 0⟩ : Entry) ∈
      (rename_files patNone [] true [⟨("a.txt").toList, 0⟩]).files :=
  ⟨fun _ => rfl,
   (C7_noop_entries_excluded patNone [] true [⟨("a.txt").toList, 0⟩]).2.2.1
     ⟨("a.txt").toList, 0⟩ (by simp) (fun _ => rfl)⟩

/-- Claim C8 counterexample: an entry whose proposed target exists before the
run starts is not always skipped.  Directory `a.txt`, `b.txt` with the
transforms replace `b` by the empty string then prefix `a`: the first entry
renames `a.txt` away to `aa.txt`, freeing the name `a.txt`; the second entry
proposes the pre-existing target `a.txt` yet is renamed rather than skipped,
and both entries enter the count. -/
theorem C8_preexisting_target_counterexample :
    existsName (("a.txt").toList)
      [⟨("a.txt").toList, 0⟩, ⟨("b.txt").toList, 1⟩] = true ∧
    applyPattern
      { sanitize := false, replace := some (("b").toList, []),
        pre := some (("a").toList), suff := none, sequential := false,
        digits := 3, date := false } [] 2 (("b.txt").toList) = ("a.txt").toList ∧
    (rename_files
        { sanitize := false, replace := some (("b").toList, []),
          pre := some (("a").toList), suff := none, sequential := false,
          digits := 3, date := false } [] false
        [⟨("a.txt").toList, 0⟩, ⟨("b.txt").toList, 1⟩]).skipped = [] ∧
    (rename_files
        { sanitize := false, replace := some (("b").toList, []),
          pre := some (("a").toList), suff := none, sequential := false,
          digits := 3, date := false } [] false
        [⟨("a.txt").toList, 0⟩, ⟨("b.txt").toList, 1⟩]).renamed_count = 2 ∧
    (("b.txt").toList, ("a.txt").toList) ∈
      (rename_files
        { sanitize := false, replace := some (("b").toList, []),
          pre := some (("a").toList), suff := none, sequential := false,
          digits := 3, date := false } [] false
        [⟨("a.txt").toList, 0⟩, ⟨("b.txt").toList, 1⟩]).plan := by
  decide

/-- Claim C8 (amended): the collision check is against the directory state at
the moment the entry is processed (which in dry-run mode coincides with the
pre-run state).  If the `i`-th enumerated entry proposes a changed name whose
target exists in the state reached after the first `i` iterations, the run
equals the remaining iterations started from that state with only a skip
report appended: the entry is reported as skipped, its file is not renamed,
it adds nothing to the plan or the count, and the remaining entries are still
processed. -/
theorem C8_collision_checked_at_processing_time (pat : Pattern) (d : FName)
    (dry : Bool) (files : List Entry) (i : Nat) (ie : Nat × Entry) (acc : RunResult)
    (hi : i < (enumerateFrom1 (sortFiles files)).length)
    (hie : (enumerateFrom1 (sortFiles files)).getD i (0, ⟨[], 0⟩) = ie)
    (hacc : ((enumerateFrom1 (sortFiles files)).take i).foldl (processEntry pat d dry)
        { plan := [], skipped := [], renamed_count := 0, files := files } = acc)
    (hne : applyPattern pat d ie.1 ie.2.name ≠ ie.2.name)
    (hex : existsName (applyPattern pat d ie.1 ie.2.name) acc.files = true) :
    rename_files pat d dry files =
      ((enumerateFrom1 (sortFiles files)).drop (i + 1)).foldl (processEntry pat d dry)
        { acc with
            skipped := acc.skipped ++ [(ie.2.name, applyPattern pat d ie.1 ie.2.name)] } ∧
    (ie.2.name, applyPattern pat d ie.1 ie.2.name) ∈
      (rename_files pat d dry files).skipped := by
  have hL : enumerateFrom1 (sortFiles files) =
      (enumerateFrom1 (sortFiles files)).take i ++
        (ie :: (enumerateFrom1 (sortFiles files)).drop (i + 1)) := by
    conv_lhs => rw [← List.take_append_drop i (enumerateFrom1 (sortFiles files))]
    rw [List.drop_eq_getElem_cons hi, ← List.getD_eq_getElem _ (0, (⟨[], 0⟩ : Entry)) hi,
      hie]
  have heq : rename_files pat d dry files =
      ((enumerateFrom1 (sortFiles files)).drop (i + 1)).foldl (processEntry pat d dry)
        { acc with
            skipped := acc.skipped ++ [(ie.2.name, applyPattern pat d ie.1 ie.2.name)] } := by
    unfold rename_files
    conv_lhs => rw [hL]
    rw [List.foldl_append, List.foldl_cons, hacc,
      processEntry_skip pat d dry acc ie hne hex]
  refine ⟨heq, ?_⟩
  rw [heq]
  exact foldl_skipped_mono pat d dry _ _ _
    (List.mem_append_right _ (List.mem_singleton.mpr rfl))

/-- Witness for the amended C8: directory `a.txt`, `b.txt`, transform replace
`a` by `b`, dry run; the first entry proposes `b.txt`, which exists, and is
reported as skipped. -/
theorem C8_collision_checked_at_processing_time_witness :
    applyPattern
        { sanitize := false, replace := some (("a").toList, ("b").toList),
          pre := none, suff := none, sequential := false, digits := 3,
          date := false } [] 1 (("a.txt").toList) ≠ ("a.txt").toList ∧
    (("a.txt").toList, ("b.txt").toList) ∈
      (rename_files
        { sanitize := false, replace := some (("a").toList, ("b").toList),
          pre := none, suff := none, sequential := false, digits := 3,
          date := false } [] true
        [⟨("a.txt").toList, 0⟩, ⟨("b.txt").toList, 1⟩]).skipped := by
  have h := C8_collision_checked_at_processing_time
    { sanitize := false, replace := some (("a").toList, ("b").toList),
      pre := none, suff := none, sequential := false, digits := 3, date := false }
    [] true [⟨("a.txt").toList, 0⟩, ⟨("b.txt").toList, 1⟩] 0
    (1, ⟨("a.txt").toList, 0⟩)
    { plan := [], skipped := [], renamed_count := 0,
      files := [⟨("a.txt").toList, 0⟩, ⟨("b.txt").toList, 1⟩] }
    (by decide) (by decide) (by decide) (by decide) (by decide)
  exact ⟨by decide, h.2⟩

/-- Claim C9: the collision check consults only the directory state at the
moment an entry is processed, never the targets assigned earlier in the same
run; consequently, in a dry run two distinct source files whose transformed
names coincide on a fresh target are both included in the plan with the same
proposed target. -/
theorem C9_intra_run_collisions_both_planned (pat : Pattern) (d : FName)
    (files : List Entry) (ie1 ie2 : Nat × Entry)
    (h1 : ie1 ∈ enumerateFrom1 (sortFiles files))
    (h2 : ie2 ∈ enumerateFrom1 (sortFiles files))
    (hdistinct : ie1.2.name ≠ ie2.2.name)
    (hT : applyPattern pat d ie2.1 ie2.2.name = applyPattern pat d ie1.1 ie1.2.name)
    (hc1 : applyPattern pat d ie1.1 ie1.2.name ≠ ie1.2.name)
    (hc2 : applyPattern pat d ie2.1 ie2.2.name ≠ ie2.2.name)
    (hfs : existsName (applyPattern pat d ie1.1 ie1.2.name) files = false) :
    (ie1.2.name, applyPattern pat d ie1.1 ie1.2.name) ∈
      (rename_files pat d true files).plan ∧
    (ie2.2.name, applyPattern pat d ie1.1 ie1.2.name) ∈
      (rename_files pat d true files).plan := by
  have hc2' : applyPattern pat d ie1.1 ie1.2.name ≠ ie2.2.name := hT ▸ hc2
  unfold rename_files
  rw [foldl_dry pat d files _ _ rfl]
  constructor
  · have hstep : dryPlanStep pat d files ie1 =
        some (ie1.2.name, applyPattern pat d ie1.1 ie1.2.name) := by
      simp [dryPlanStep, hc1, hfs]
    simpa using List.mem_filterMap.mpr ⟨ie1, h1, hstep⟩
  · have hstep : dryPlanStep pat d files ie2 =
        some (ie2.2.name, applyPattern pat d ie1.1 ie1.2.name) := by
      simp [dryPlanStep, hT, hc2', hfs]
    simpa using List.mem_filterMap.mpr ⟨ie2, h2, hstep⟩

/-- Witness for C9: with sanitize enabled, `a  b.txt` (two spaces) and
`a b.txt` both map to the fresh target `a_b.txt`, and both pairs appear in
the dry-run plan. -/
theorem C9_intra_run_collisions_both_planned_witness :
    existsName (("a_b.txt").toList)
      [⟨("a b.txt").toList, 0⟩, ⟨("a  b.txt").toList, 1⟩] = false ∧
    (("a b.txt").toList, ("a_b.txt").toList) ∈
      (rename_files
        { sanitize := true, replace := none, pre := none, suff := none,
          sequential := false, digits := 3, date := false } [] true
        [⟨("a b.txt").toList, 0⟩, ⟨("a  b.txt").toList, 1⟩]).plan ∧
    (("a  b.txt").toList, ("a_b.txt").toList) ∈
      (rename_files
        { sanitize := true, replace := none, pre := none, suff := none,
          sequential := false, digits := 3, date := false } [] true
        [⟨("a b.txt").toList, 0⟩, ⟨("a  b.txt").toList, 1⟩]).plan := by
  have h := C9_intra_run_collisions_both_planned
    { sanitize := true, replace := none, pre := none, suff := none,
      sequential := false, digits := 3, date := false } []
    [⟨("a b.txt").toList, 0⟩, ⟨("a  b.txt").toList, 1⟩]
    (2, ⟨("a b.txt").toList, 0⟩) (1, ⟨("a  b.txt").toList, 1⟩)
    (by decide) (by decide) (by decide) (by decide) (by decide) (by decide) (by decide)
  exact ⟨by decide, h.1, h.2⟩

/-- Claim C10: with no transform enabled, `main` prints an error and exits
before calling the pipeline, and even the pipeline itself would rename
nothing: its result has an empty plan, no skips, count 0, and the untouched
directory. -/
theorem C10_empty_pattern_refuses_to_run (pat : Pattern) (d : FName) (dry : Bool)
    (files : List Entry) (h : patternIsEmpty pat = true) :
    main_run pat d dry files = none ∧
    rename_files pat d dry files =
      { plan := [], skipped := [], renamed_count := 0, files := files } := by
  refine ⟨by simp [main_run, h], ?_⟩
  unfold rename_files
  exact foldl_noop pat d dry (applyPattern_of_empty pat h d) _ _

/-- Witness for C10 at the empty pattern and a one-file directory. -/
theorem C10_empty_pattern_refuses_to_run_witness :
    patternIsEmpty patNone = true ∧
    main_run patNone [] true [⟨("a.txt").toList, 0⟩] = none :=
  ⟨by decide,
   (C10_empty_pattern_refuses_to_run patNone [] true [⟨("a.txt").toList, 0⟩]
     (by decide)).1⟩
